import Mathlib

/- Shallow embedding of the ledger, tiered-memory and ritual-stage subsystem of
The-Living-Library (src/library_core/agents/__init__.py).

Impure ingredients are made explicit parameters:
  * the SHA-256 hex digest is an arbitrary function `h : String → String`
    (every claim below depends only on the digest being a function of the
    serialized bytes, never on cryptographic properties);
  * `datetime.fromisoformat` (after the `Z` → `+00:00` replacement) is an
    arbitrary partial parser `pts : String → Option Int`, `none` modelling the
    exception branch;
  * `_iso_now()` and `uuid` are explicit string arguments of each operation;
  * file I/O is modelled by passing the persisted list of blocks directly
    (`ReadResult.err` models the exception raised by a failed read). -/

/-- Two-level JSON value as used by the agents: every block field is either a
string or a flat string-to-string object (the `data` field). -/
inductive JVal where
  | str (v : String)
  | obj (kvs : List (String × String))
deriving DecidableEq

/-- Insertion-ordered JSON object, the shape of a Python dict literal. -/
abbrev JObj := List (String × JVal)

/-- Escape of one character inside a JSON string literal (quote and backslash,
the only escapes the agents can produce in practice). -/
def escChar (c : Char) : String :=
  if c = '"' then "\\\"" else if c = '\\' then "\\\\" else String.singleton c

/-- Serialization of a JSON string literal, as `json.dumps` renders it. -/
def jstr (s : String) : String :=
  "\"" ++ String.join (s.toList.map escChar) ++ "\""

/-- Lexicographic code-point comparison of character lists, the order Python
compares `str` keys with when `json.dumps(sort_keys=True)` sorts them. -/
def charListLe : List Char → List Char → Bool
  | [], _ => true
  | _ :: _, [] => false
  | a :: as, b :: bs =>
    if a.toNat < b.toNat then true
    else if b.toNat < a.toNat then false
    else charListLe as bs

/-- Comparison of key-value pairs by key, the order `json.dumps(sort_keys=True)`
sorts object members in. -/
def keyLE {α : Type} (p q : String × α) : Prop :=
  charListLe p.1.toList q.1.toList = true

instance {α : Type} : DecidableRel (keyLE (α := α)) :=
  fun p q => inferInstanceAs (Decidable (charListLe p.1.toList q.1.toList = true))

instance {α : Type} : IsTotal (String × α) keyLE := by
  constructor
  have H : ∀ as bs : List Char, charListLe as bs = true ∨ charListLe bs as = true := by
    intro as
    induction as with
    | nil => exact fun bs => Or.inl rfl
    | cons a as ih =>
      intro bs
      cases bs with
      | nil => exact Or.inr rfl
      | cons b bs =>
        rcases Nat.lt_trichotomy a.toNat b.toNat with hab | hab | hab
        · left
          simp [charListLe, hab]
        · rcases ih bs with hr | hr
          · left
            simp [charListLe, hab, hr]
          · right
            simp [charListLe, hab.symm, hr]
        · right
          simp [charListLe, hab]
  exact fun p q => H p.1.toList q.1.toList

instance {α : Type} : IsTrans (String × α) keyLE := by
  constructor
  have H : ∀ as bs cs : List Char, charListLe as bs = true → charListLe bs cs = true →
      charListLe as cs = true := by
    intro as
    induction as with
    | nil => exact fun bs cs h1 h2 => rfl
    | cons a as ih =>
      intro bs cs h1 h2
      cases bs with
      | nil => exact absurd h1 (by simp [charListLe])
      | cons b bs =>
        cases cs with
        | nil => exact absurd h2 (by simp [charListLe])
        | cons c cs =>
          simp only [charListLe] at h1 h2 ⊢
          rcases Nat.lt_trichotomy a.toNat b.toNat with hab | hab | hab
          · rcases Nat.lt_trichotomy b.toNat c.toNat with hbc | hbc | hbc
            · rw [if_pos (by omega)]
            · rw [if_pos (by omega)]
            · rw [if_neg (by omega), if_pos (by omega)] at h2
              exact absurd h2 (by decide)
          · rcases Nat.lt_trichotomy b.toNat c.toNat with hbc | hbc | hbc
            · rw [if_pos (by omega)]
            · rw [if_neg (by omega), if_neg (by omega)] at h1
              rw [if_neg (by omega), if_neg (by omega)] at h2
              rw [if_neg (by omega), if_neg (by omega)]
              exact ih bs cs h1 h2
            · rw [if_neg (by omega), if_pos (by omega)] at h2
              exact absurd h2 (by decide)
          · rw [if_neg (by omega), if_pos (by omega)] at h1
            exact absurd h1 (by decide)
  exact fun p q r h1 h2 => H p.1.toList q.1.toList r.1.toList h1 h2

/-- Sorting of an association list by key (`sort_keys=True`). -/
def sortByKey {α : Type} (l : List (String × α)) : List (String × α) :=
  List.insertionSort keyLE l

/-- Serialization of already-rendered object members with the separators
`json.dumps` uses by default. -/
def serFields (l : List (String × String)) : String :=
  "\x7b" ++ String.intercalate ", " (l.map (fun p => jstr p.1 ++ ": " ++ p.2)) ++ "\x7d"

/-- Serialization of one JSON value with nested keys sorted. -/
def serVal : JVal → String
  | .str v => jstr v
  | .obj kvs => serFields ((sortByKey kvs).map (fun p => (p.1, jstr p.2)))

/-- Model of `json.dumps(obj, sort_keys=True)` for the two-level objects the
agents build: keys sorted at the top level and inside nested objects. -/
def dumpsSorted (j : JObj) : String :=
  serFields ((sortByKey j).map (fun p => (p.1, serVal p.2)))

/-- Canonical form of a JSON value: nested object keys sorted. -/
def canonVal : JVal → JVal
  | .str v => .str v
  | .obj kvs => .obj (sortByKey kvs)

/-- Canonical form of one object member. -/
def canonPair (p : String × JVal) : String × JVal := (p.1, canonVal p.2)

/-- Serialization of a value already in canonical form (no further sorting). -/
def serValCanon : JVal → String
  | .str v => jstr v
  | .obj kvs => serFields (kvs.map (fun p => (p.1, jstr p.2)))

/-- Ledger block, the parsed form of one entry of `ledger.json`: the Limnus
agent always writes exactly the fields `ts`, `kind`, `data`, `prev`, `hash`. -/
structure Block where
  ts : String
  kind : String
  data : List (String × String)
  prev : String
  hash : String
deriving DecidableEq, Inhabited

/-- Dict the block hash is computed over: every field except `hash`, in the
insertion order the Limnus agent uses. -/
def blockObj (b : Block) : JObj :=
  [("ts", .str b.ts), ("kind", .str b.kind), ("data", .obj b.data), ("prev", .str b.prev)]

/-- Byte string fed to the digest: `json.dumps(block_without_hash, sort_keys=True)`. -/
def hashInput (b : Block) : String := dumpsSorted (blockObj b)

/-- Digest of a block's non-hash fields under the digest function `h`. -/
def blockHash (h : String → String) (b : Block) : String := h (hashInput b)

/-- Genesis block written by `LimnusAgent.__init__` when `ledger.json` is absent. -/
def mkGenesis (h : String → String) (ts : String) : Block :=
  let b : Block :=
    { ts := ts, kind := "genesis", data := [("anchor", "I return as breath.")],
      prev := "", hash := "" }
  { b with hash := blockHash h b }

/-- Inputs of one Limnus ledger append: the timestamp taken at append time, the
raw input text and the Echo agent's styled text and glyph. -/
structure AppendOp where
  ts : String
  text : String
  styled : String
  glyph : String

/-- Ledger append performed by `LimnusAgent.process`: `prev` is the current
tail's hash (empty on an empty chain) and `hash` is the digest of the block's
non-hash fields under sorted-key serialization. -/
def appendBlock (h : String → String) (op : AppendOp) (chain : List Block) : List Block :=
  let prevHash := match chain.getLast? with
    | some b => b.hash
    | none => ""
  let b : Block :=
    { ts := op.ts, kind := "input",
      data := [("text", op.text), ("styled_text", op.styled), ("glyph", op.glyph)],
      prev := prevHash, hash := "" }
  chain ++ [{ b with hash := blockHash h b }]

/-- Ledger produced from the genesis block by a finite sequence of appends. -/
def buildChain (h : String → String) (genesisTs : String) (ops : List AppendOp) : List Block :=
  ops.foldl (fun ch op => appendBlock h op ch) [mkGenesis h genesisTs]

/-- Entry of the Garden ritual ledger (`garden_ledger` state). -/
structure GEntry where
  ts : String
  kind : String
  data : List (String × String)
deriving DecidableEq

/-- Integrity findings of `KiraAgent.process`; `issueMsg` renders each to the
exact string the source appends to `issues`. -/
inductive Issue where
  | readError (msg : String)
  | missingOrEmpty
  | malformedGenesis
  | hashMismatch (i : Nat)
  | brokenPrev (i : Nat)
  | tsOrder (i : Nat)
  | noConsent
deriving DecidableEq

/-- Rendering of each finding, matching the source strings verbatim. -/
def issueMsg : Issue → String
  | .readError m => "Ledger read error: " ++ m
  | .missingOrEmpty => "Ledger missing or empty"
  | .malformedGenesis => "Genesis block prev field should be empty"
  | .hashMismatch i => "Hash mismatch at block " ++ toString i
  | .brokenPrev i => "Broken prev link at block " ++ toString i
  | .tsOrder i => "Timestamp out of order at block " ++ toString i
  | .noConsent => "No consent recorded in ritual ledger"

/-- Findings of the `index > 0` part of the loop body for block `b` with
predecessor `pb`: the prev-link check, then the timestamp comparison whose
parse failures (`pts _ = none`) are swallowed by the `try`/`except`. -/
def linkIssues (pts : String → Option Int) (i : Nat) (pb b : Block) : List Issue :=
  (if b.prev ≠ pb.hash then [Issue.brokenPrev i] else [])
  ++ (match pts pb.ts, pts b.ts with
      | some p, some c => if c < p then [Issue.tsOrder i] else []
      | _, _ => [])

/-- Findings contributed by iteration `i` of the validator loop over block `b`:
hash recomputation, then the predecessor checks when `i > 0`. -/
def blockIssues (h : String → String) (pts : String → Option Int)
    (blocks : List Block) (i : Nat) (b : Block) : List Issue :=
  (if b.hash ≠ blockHash h b then [Issue.hashMismatch i] else [])
  ++ (if 0 < i then
        match blocks[i-1]? with
        | some pb => linkIssues pts i pb b
        | none => []
      else [])

/-- Full validator loop (`for index, block in enumerate(ledger_blocks)`). -/
def scanIssues (h : String → String) (pts : String → Option Int)
    (blocks : List Block) : List Issue :=
  (List.range blocks.length).flatMap fun i =>
    match blocks[i]? with
    | some b => blockIssues h pts blocks i b
    | none => []

/-- Findings over the parsed chain: the missing-or-empty check, the genesis
`prev` truthiness check, then the block loop. -/
def chainIssues (h : String → String) (pts : String → Option Int)
    (blocks : List Block) : List Issue :=
  match blocks with
  | [] => [Issue.missingOrEmpty]
  | b0 :: _ =>
    (if b0.prev ≠ "" then [Issue.malformedGenesis] else [])
    ++ scanIssues h pts blocks

/-- Outcome of `ledger_path.read_text` plus `json.loads`: either the parsed
block list or the exception message caught by the validator. -/
inductive ReadResult where
  | ok (blocks : List Block)
  | err (msg : String)

/-- Ordered findings of one `KiraAgent.process` invocation: the read-error
issue (if any), then the chain checks, then the ritual-consent check. -/
def kiraIssues (h : String → String) (pts : String → Option Int)
    (r : ReadResult) (gardenEntries : List GEntry) : List Issue :=
  let readPart : List Issue × List Block :=
    match r with
    | .ok bs => ([], bs)
    | .err m => ([Issue.readError m], [])
  readPart.1 ++ chainIssues h pts readPart.2
  ++ (if gardenEntries.any (fun e => e.kind == "consent") then []
      else [Issue.noConsent])

/-- Structured result returned by the validator. -/
structure KiraResult where
  passed : Bool
  issues : List String

/-- Model of `KiraAgent.process`: always returns a structured result with
`passed = not issues`. -/
def kiraProcess (h : String → String) (pts : String → Option Int)
    (r : ReadResult) (gardenEntries : List GEntry) : KiraResult :=
  let iss := kiraIssues h pts r gardenEntries
  { passed := iss.isEmpty, issues := iss.map issueMsg }

/-- Element of a parsed top-level JSON array in `ledger.json`: either a
block-shaped JSON object (the only object shape the Limnus writer produces) or
any non-object value (number, string, array, null, boolean). -/
inductive PyElem where
  | blockElem (b : Block)
  | badElem
deriving DecidableEq

/-- Block extraction from an array element; `none` marks the non-object
elements on which the validator loop raises. -/
def PyElem.asBlock? : PyElem → Option Block
  | .blockElem b => some b
  | .badElem => none

/-- Extraction of the whole array: `some` exactly when every element is a
block-shaped object, `none` when some element makes the loop raise. -/
def elemsAsBlocks? : List PyElem → Option (List Block)
  | [] => some []
  | PyElem.blockElem b :: t => (elemsAsBlocks? t).map (fun bs => b :: bs)
  | PyElem.badElem :: _ => none

/-- Shape of the outcome of `ledger_path.read_text` plus `json.loads` as the
validator's code paths distinguish it: a raised-and-caught read or parse
error, a falsy parse result (`[]`, an empty object, `""`, `0`, `null`,
`false` — all taken by the `if not ledger_blocks` branch), a top-level JSON
array, or a truthy non-array (a non-empty object, string or number). -/
inductive LedgerDoc where
  | readErr (msg : String)
  | falsyNonArr
  | arr (elems : List PyElem)
  | truthyNonArr

/-- Whether an invocation outcome is a returned structured result (`ok`)
rather than an exception escaping `KiraAgent.process` (`error`). -/
def returnsResult : Except String KiraResult → Bool
  | .ok _ => true
  | .error _ => false

/-- Model of one `KiraAgent.process` invocation over the parsed ledger
document, exception behaviour included. A caught read error and a falsy parse
result return structured results, as does any array of block-shaped objects.
A truthy non-array raises uncaught at `ledger_blocks[0]` /
`first_block.get("prev")` (a `KeyError`, `TypeError` or `AttributeError`,
since JSON object keys are strings and other values are not dicts); an array
holding any non-object element raises uncaught at `first_block.get("prev")`
or in the `block_copy` comprehension of the loop. The exception's precise
message is not modelled, only that no result is returned. -/
def kiraRun (h : String → String) (pts : String → Option Int)
    (doc : LedgerDoc) (g : List GEntry) : Except String KiraResult :=
  match doc with
  | .readErr msg => .ok (kiraProcess h pts (.err msg) g)
  | .falsyNonArr => .ok (kiraProcess h pts (.ok []) g)
  | .truthyNonArr => .error "uncaught exception"
  | .arr elems =>
    if elems.isEmpty then .ok (kiraProcess h pts (.ok []) g)
    else
      match elemsAsBlocks? elems with
      | some blocks => .ok (kiraProcess h pts (.ok blocks) g)
      | none => .error "uncaught exception"

/-- Entry of the Limnus tiered memory store (`limnus_memory.json`). -/
structure MemEntry where
  id : String
  ts : String
  text : String
  layer : String
  tags : List String
deriving DecidableEq

/-- First promotion pass of `LimnusAgent.process`: every `L1` entry becomes `L2`. -/
def promoteL1 (e : MemEntry) : MemEntry :=
  if e.layer = "L1" then { e with layer := "L2" } else e

/-- Second promotion pass: every `L2` entry becomes `L3`. -/
def promoteL2 (e : MemEntry) : MemEntry :=
  if e.layer = "L2" then { e with layer := "L3" } else e

/-- Inputs of one memory record operation: generated id, timestamp, raw input
text and the owner tags derived from `context.user_id`. -/
structure RecordOp where
  id : String
  ts : String
  text : String
  tags : List String

/-- New memory entry created at layer `L1` by one record operation. -/
def newMemEntry (op : RecordOp) : MemEntry :=
  { id := op.id, ts := op.ts, text := op.text, layer := "L1", tags := op.tags }

/-- Memory step of `LimnusAgent.process`: promote all `L1` to `L2`; if the
count of `L2` entries after that pass strictly exceeds 5, promote all `L2` to
`L3`; then append one fresh `L1` entry. -/
def limnusRecord (op : RecordOp) (mems : List MemEntry) : List MemEntry :=
  let promoted := mems.map promoteL1
  let promoted2 :=
    if 5 < promoted.countP (fun e => e.layer == "L2") then promoted.map promoteL2
    else promoted
  promoted2 ++ [newMemEntry op]

/-- Iterated record operations (left to right). -/
def recordSeq (ops : List RecordOp) (mems : List MemEntry) : List MemEntry :=
  ops.foldl (fun acc op => limnusRecord op acc) mems

/-- Numeric rank of a retention layer (unknown labels rank lowest). -/
def layerRank (s : String) : Nat :=
  if s = "L1" then 1 else if s = "L2" then 2 else if s = "L3" then 3 else 0

/-- One allowed layer transition: `L1` to `L2` or `L2` to `L3`. -/
def promoteStepRel (a b : String) : Prop :=
  (a = "L1" ∧ b = "L2") ∨ (a = "L2" ∧ b = "L3")

/-- Fixed six-phase ritual order of the Garden agent. -/
def STAGES : List String := ["scatter", "witness", "plant", "return", "give", "begin_again"]

/-- Keywords whose presence marks an input as a consent event. -/
def CONSENT_KEYWORDS : List String := ["consent", "accept", "agree", "permit"]

/-- Garden ritual-ledger state (`garden_ledger` key of the workspace state). -/
structure GardenLedger where
  stage : String
  entries : List GEntry
deriving DecidableEq

/-- Test that the first list is an initial segment of the second. -/
def headMatch : List Char → List Char → Bool
  | [], _ => true
  | _ :: _, [] => false
  | a :: as, b :: bs => a == b && headMatch as bs

/-- Test that the first list occurs contiguously inside the second. -/
def subList (n : List Char) : List Char → Bool
  | [] => headMatch n []
  | b :: bs => headMatch n (b :: bs) || subList n bs

/-- Model of the Python substring test `needle in hay`. -/
def pyIn (needle hay : String) : Bool := subList needle.toList hay.toList

/-- Model of Python `str.strip()`: whitespace removed from both ends. -/
def pyStrip (s : String) : String :=
  ⟨((s.toList.dropWhile Char.isWhitespace).reverse.dropWhile Char.isWhitespace).reverse⟩

/-- Model of Python `str.lower()` (ASCII lowering, the only case the keyword
and signal comparisons depend on). -/
def pyLower (s : String) : String := ⟨s.toList.map Char.toLower⟩

/-- Model of `s.split(" ", 1)[1]`: everything after the first space. -/
def pySplitRest (s : String) : String :=
  match s.splitOn " " with
  | [] => ""
  | _ :: rest => String.intercalate " " rest

/-- Successor phase in the fixed order, wrapping from the last back to the
first (`STAGES[(STAGES.index(stage) + 1) % len(STAGES)]`). -/
def nextStageOf (s : String) : String :=
  STAGES.getD ((STAGES.indexOf s + 1) % STAGES.length) ""

/-- Event classification of `GardenAgent.process` (the if-elif chain before the
consent override): given the lowercased input, the stripped input, the entry
count after the genesis bootstrap and the current stage, it returns the event
kind, the event data and the (possibly advanced) stage. -/
def classify (lower userText : String) (len1 : Nat) (stage1 : String) :
    String × List (String × String) × String :=
  if (lower = "start" ∨ lower = "begin") ∧ len1 = 1 then
    ("begin", [("text", userText)], stage1)
  else if lower.startsWith "open " then
    ("open", [("scroll", pySplitRest userText)], stage1)
  else if lower = "next" then
    if stage1 ∈ STAGES then
      ("advance", [("to", nextStageOf stage1)], nextStageOf stage1)
    else
      ("advance", [("text", userText)], stage1)
  else
    ("note", [("text", userText)], stage1)

/-- Model of `GardenAgent.process`: genesis bootstrap, event classification,
then the consent override, then the append of the new entry. -/
def gardenStep (now : String) (inputText : String) (led : GardenLedger) : GardenLedger :=
  let entries0 := led.entries
  let entries1 :=
    if entries0.isEmpty then entries0 ++ [{ ts := now, kind := "genesis", data := [] }]
    else entries0
  let stage1 := if entries0.isEmpty then "scatter" else led.stage
  let userText := pyStrip inputText
  let lower := pyLower userText
  let classified := classify lower userText entries1.length stage1
  let consent := CONSENT_KEYWORDS.any (fun kw => pyIn kw lower)
  let kind2 := if consent then "consent" else classified.1
  let data2 := if consent then [("text", userText)] else classified.2.1
  { stage := classified.2.2, entries := entries1 ++ [{ ts := now, kind := kind2, data := data2 }] }

/-- Sample memory store with one `L1` entry (used by witnesses). -/
def memsW : List MemEntry := [{ id := "e", ts := "t0", text := "y", layer := "L1", tags := [] }]

/-- Sample single record operation (used by witnesses). -/
def opsW : List RecordOp := [{ id := "a", ts := "t", text := "x", tags := [] }]

/-- Six concrete record operations starting from an empty store. -/
def sixOps : List RecordOp :=
  [{ id := "m1", ts := "t1", text := "x1", tags := [] },
   { id := "m2", ts := "t2", text := "x2", tags := [] },
   { id := "m3", ts := "t3", text := "x3", tags := [] },
   { id := "m4", ts := "t4", text := "x4", tags := [] },
   { id := "m5", ts := "t5", text := "x5", tags := [] },
   { id := "m6", ts := "t6", text := "x6", tags := [] }]

/-- Sample raw block object (used by the serialization witness). -/
def j1W : JObj := [("b", .str "1"), ("a", .obj [("y", "2"), ("x", "3")])]

/-- The same logical object as `j1W` with both insertion orders permuted. -/
def j2W : JObj := [("a", .obj [("x", "3"), ("y", "2")]), ("b", .str "1")]

theorem limnusRecord_eq (op : RecordOp) (mems : List MemEntry) :
    limnusRecord op mems =
      (if 5 < (mems.map promoteL1).countP (fun e => e.layer == "L2")
       then mems.map (fun e => promoteL2 (promoteL1 e))
       else mems.map promoteL1) ++ [newMemEntry op] := by
  simp only [limnusRecord]
  split <;> simp [List.map_map, Function.comp]

theorem limnusRecord_length (op : RecordOp) (mems : List MemEntry) :
    (limnusRecord op mems).length = mems.length + 1 := by
  rw [limnusRecord_eq]
  split <;> simp

theorem limnusRecord_get (op : RecordOp) (mems : List MemEntry) (i : Nat)
    (hi : i < mems.length) (hj : i < (limnusRecord op mems).length) :
    (limnusRecord op mems).get ⟨i, hj⟩ =
      (if 5 < (mems.map promoteL1).countP (fun e => e.layer == "L2")
       then promoteL2 (promoteL1 (mems.get ⟨i, hi⟩))
       else promoteL1 (mems.get ⟨i, hi⟩)) := by
  simp only [List.get_eq_getElem, limnusRecord_eq]
  split
  · rw [List.getElem_append_left (by simpa using hi)]
    simp
  · rw [List.getElem_append_left (by simpa using hi)]
    simp

theorem promoteStepRel_rank {a b : String} (h : promoteStepRel a b) :
    layerRank a ≤ layerRank b := by
  rcases h with ⟨ha, hb⟩ | ⟨ha, hb⟩ <;> subst ha <;> subst hb <;> decide

theorem rtg_layerRank {a b : String} (h : Relation.ReflTransGen promoteStepRel a b) :
    layerRank a ≤ layerRank b := by
  induction h with
  | refl => exact le_refl _
  | tail _ hstep ih => exact le_trans ih (promoteStepRel_rank hstep)

theorem rtg_promoteL1 (e : MemEntry) :
    Relation.ReflTransGen promoteStepRel e.layer (promoteL1 e).layer := by
  by_cases h : e.layer = "L1"
  · have h2 : (promoteL1 e).layer = "L2" := by simp [promoteL1, h]
    rw [h2]
    exact Relation.ReflTransGen.single (Or.inl ⟨h, rfl⟩)
  · have h2 : promoteL1 e = e := by simp [promoteL1, h]
    rw [h2]

theorem rtg_promoteL2 (e : MemEntry) :
    Relation.ReflTransGen promoteStepRel e.layer (promoteL2 e).layer := by
  by_cases h : e.layer = "L2"
  · have h2 : (promoteL2 e).layer = "L3" := by simp [promoteL2, h]
    rw [h2]
    exact Relation.ReflTransGen.single (Or.inr ⟨h, rfl⟩)
  · have h2 : promoteL2 e = e := by simp [promoteL2, h]
    rw [h2]

theorem rtg_limnusRecord_get (op : RecordOp) (mems : List MemEntry) (i : Nat)
    (hi : i < mems.length) (hj : i < (limnusRecord op mems).length) :
    Relation.ReflTransGen promoteStepRel (mems.get ⟨i, hi⟩).layer
      ((limnusRecord op mems).get ⟨i, hj⟩).layer := by
  rw [limnusRecord_get op mems i hi hj]
  split
  · exact (rtg_promoteL1 _).trans (rtg_promoteL2 _)
  · exact rtg_promoteL1 _

theorem rtg_recordSeq (ops : List RecordOp) :
    ∀ (mems : List MemEntry) (i : Nat) (hi : i < mems.length),
      ∃ hj : i < (recordSeq ops mems).length,
        Relation.ReflTransGen promoteStepRel (mems.get ⟨i, hi⟩).layer
          ((recordSeq ops mems).get ⟨i, hj⟩).layer := by
  induction ops with
  | nil => exact fun mems i hi => ⟨hi, Relation.ReflTransGen.refl⟩
  | cons op ops ih =>
    intro mems i hi
    have h1 : i < (limnusRecord op mems).length := by
      rw [limnusRecord_length]
      omega
    obtain ⟨hj, hr⟩ := ih (limnusRecord op mems) i h1
    exact ⟨hj, (rtg_limnusRecord_get op mems i hi h1).trans hr⟩

/-- C2: after exactly 6 record operations from the empty store the first entry
is NOT at layer `L3` — each record promotes it one tier at most, so five
promotions leave it at `L2`; the over-threshold promotion to `L3` first fires
on the 7th record. This refutes the claim as stated. -/
theorem C2_counterexample :
    (recordSeq sixOps []).head?.map MemEntry.layer = some "L2" ∧
    (recordSeq sixOps []).head?.map MemEntry.layer ≠ some "L3" := by
  decide

set_option maxHeartbeats 1600000 in
/-- C2 (amended): starting from the empty store with the default threshold 5,
after exactly 6 successive record operations the first entry recorded is at
layer `L2` and the most recently recorded entry is at layer `L1` (the full
layer sequence is five `L2` entries followed by one `L1` entry). -/
theorem C2_amended_thm (o1 o2 o3 o4 o5 o6 : RecordOp) :
    (recordSeq [o1, o2, o3, o4, o5, o6] []).map MemEntry.layer
      = ["L2", "L2", "L2", "L2", "L2", "L1"] := by
  rfl

/-- C3: one record operation first promotes every `L1` entry to `L2`
(`promoteL1`), then, when the count of `L2` entries after that pass strictly
exceeds 5, promotes every `L2` entry to `L3` (`promoteL2`), and finally
appends exactly one new entry whose layer is `L1`. Stated as the whole-list
equation plus a per-index characterization: position `i < mems.length` holds
exactly the transformed old entry `i`, position `mems.length` holds the one
new `L1` entry, and nothing else is present. -/
theorem C3_record_behavior (op : RecordOp) (mems : List MemEntry) :
    limnusRecord op mems =
      (if 5 < (mems.map promoteL1).countP (fun e => e.layer == "L2")
       then mems.map (fun e => promoteL2 (promoteL1 e))
       else mems.map promoteL1) ++ [newMemEntry op]
    ∧ (limnusRecord op mems).length = mems.length + 1
    ∧ (∀ i : Nat, (limnusRecord op mems)[i]? =
        if i = mems.length then some (newMemEntry op)
        else if 5 < (mems.map promoteL1).countP (fun e => e.layer == "L2")
          then (mems[i]?).map (fun e => promoteL2 (promoteL1 e))
          else (mems[i]?).map promoteL1)
    ∧ (limnusRecord op mems).getLast? = some (newMemEntry op)
    ∧ (newMemEntry op).layer = "L1" := by
  refine ⟨limnusRecord_eq op mems, limnusRecord_length op mems, ?_, ?_, rfl⟩
  · intro i
    rw [limnusRecord_eq]
    by_cases hieq : i = mems.length
    · subst hieq
      rw [if_pos rfl]
      split
      · have hL : (mems.map (fun e => promoteL2 (promoteL1 e))).length = mems.length := by
          simp
        rw [← hL, List.getElem?_concat_length]
      · have hL : (mems.map promoteL1).length = mems.length := by
          simp
        rw [← hL, List.getElem?_concat_length]
    · rw [if_neg hieq]
      split_ifs with hc
      · rcases Nat.lt_or_ge i mems.length with hlt | hge
        · rw [List.getElem?_append_left (by simpa using hlt), List.getElem?_map]
        · have hgt : mems.length < i := lt_of_le_of_ne hge (fun hh => hieq hh.symm)
          rw [List.getElem?_eq_none (by simpa using hgt),
            List.getElem?_eq_none (Nat.le_of_lt hgt)]
          rfl
      · rcases Nat.lt_or_ge i mems.length with hlt | hge
        · rw [List.getElem?_append_left (by simpa using hlt), List.getElem?_map]
        · have hgt : mems.length < i := lt_of_le_of_ne hge (fun hh => hieq hh.symm)
          rw [List.getElem?_eq_none (by simpa using hgt),
            List.getElem?_eq_none (Nat.le_of_lt hgt)]
          rfl
  · rw [limnusRecord_eq]
    exact List.getLast?_concat _

/-- C8: across any sequence of record operations an existing entry's layer
only ever moves along the transitions `L1 → L2` and `L2 → L3` (reflexive
transitive closure of `promoteStepRel`), and in particular its rank never
decreases. -/
theorem C8_layer_monotone (ops : List RecordOp) (mems : List MemEntry) (i : Nat)
    (hi : i < mems.length) :
    ∃ hj : i < (recordSeq ops mems).length,
      Relation.ReflTransGen promoteStepRel (mems.get ⟨i, hi⟩).layer
          ((recordSeq ops mems).get ⟨i, hj⟩).layer
      ∧ layerRank ((mems.get ⟨i, hi⟩).layer)
          ≤ layerRank (((recordSeq ops mems).get ⟨i, hj⟩).layer) := by
  obtain ⟨hj, hr⟩ := rtg_recordSeq ops mems i hi
  exact ⟨hj, hr, rtg_layerRank hr⟩

/-- C8 witness: the theorem applied to a one-entry store and one record. -/
theorem C8_witness :
    0 < memsW.length ∧
    ∃ hj : 0 < (recordSeq opsW memsW).length,
      Relation.ReflTransGen promoteStepRel ((memsW.get ⟨0, by decide⟩).layer)
          ((recordSeq opsW memsW).get ⟨0, hj⟩).layer
      ∧ layerRank ((memsW.get ⟨0, by decide⟩).layer)
          ≤ layerRank (((recordSeq opsW memsW).get ⟨0, hj⟩).layer) :=
  ⟨by decide, C8_layer_monotone opsW memsW 0 (by decide)⟩

theorem classify_stage (lower userText : String) (len1 : Nat) (stage1 : String) :
    (classify lower userText len1 stage1).2.2 =
      if lower = "next" ∧ stage1 ∈ STAGES then nextStageOf stage1 else stage1 := by
  by_cases h3 : lower = "next"
  · subst h3
    unfold classify
    rw [if_neg (by rintro ⟨h | h, -⟩ <;> revert h <;> decide)]
    rw [if_neg (by decide)]
    rw [if_pos rfl]
    by_cases h4 : stage1 ∈ STAGES
    · rw [if_pos h4, if_pos ⟨rfl, h4⟩]
    · rw [if_neg h4, if_neg (fun hc => h4 hc.2)]
  · unfold classify
    by_cases h1 : (lower = "start" ∨ lower = "begin") ∧ len1 = 1
    · rw [if_pos h1, if_neg (fun hc => h3 hc.1)]
    · rw [if_neg h1]
      by_cases h2 : lower.startsWith "open " = true
      · rw [if_pos h2, if_neg (fun hc => h3 hc.1)]
      · rw [if_neg h2, if_neg h3, if_neg (fun hc => h3 hc.1)]

theorem gardenStep_stage (now input : String) (led : GardenLedger) :
    (gardenStep now input led).stage =
      (let stage1 := if led.entries.isEmpty then "scatter" else led.stage
       if pyLower (pyStrip input) = "next" ∧ stage1 ∈ STAGES then nextStageOf stage1 else stage1) := by
  simp only [gardenStep]
  rw [classify_stage]

/-- C6: on every Garden invocation the resulting stage is computed as follows:
an empty ritual ledger first forces the stage to the first phase `"scatter"`;
then, exactly when the stripped lowercased input is the advance signal
`"next"`, the stage moves to the immediately next phase in the fixed six-phase
order (wrapping from `"begin_again"` back to `"scatter"`); any other input
leaves the stage unchanged. Stated for ledgers whose stage is one of the six
phases (every reachable state). -/
theorem C6_stage_transitions (now input : String) (led : GardenLedger)
    (hst : led.stage ∈ STAGES) :
    ((gardenStep now input led).stage =
      (let s0 := if led.entries.isEmpty then "scatter" else led.stage
       if pyLower (pyStrip input) = "next" then nextStageOf s0 else s0))
    ∧ nextStageOf "begin_again" = "scatter" := by
  constructor
  · rw [gardenStep_stage]
    by_cases hn : pyLower (pyStrip input) = "next"
    · by_cases he : led.entries.isEmpty
      · have hsc : ("scatter" : String) ∈ STAGES := by decide
        simp [hn, he, hsc]
      · simp [hn, he, hst]
    · simp [hn]
  · decide

/-- C6 witness: from an empty ledger at stage `"scatter"`, the input
`"next"` advances the stage. -/
theorem C6_witness :
    (({ stage := "scatter", entries := [] } : GardenLedger).stage ∈ STAGES) ∧
    (((gardenStep "t" "next" { stage := "scatter", entries := [] }).stage =
      (let s0 := if ({ stage := "scatter", entries := [] } : GardenLedger).entries.isEmpty
                 then "scatter"
                 else ({ stage := "scatter", entries := [] } : GardenLedger).stage
       if pyLower (pyStrip "next") = "next" then nextStageOf s0 else s0))
     ∧ nextStageOf "begin_again" = "scatter") :=
  ⟨by decide, C6_stage_transitions "t" "next" { stage := "scatter", entries := [] } (by decide)⟩

/-- C5: whenever the stripped lowercased input contains one of the consent
keywords, the entry the Garden stage appends to the ritual ledger has kind
`"consent"`, whatever other event condition (begin, open, advance) the input
also satisfies: the consent check runs last and overwrites the event kind. -/
theorem C5_consent_overrides (now input : String) (led : GardenLedger)
    (hkw : CONSENT_KEYWORDS.any (fun kw => pyIn kw (pyLower (pyStrip input))) = true) :
    ((gardenStep now input led).entries.getLast?).map GEntry.kind = some "consent" := by
  simp only [gardenStep, hkw]
  simp [List.getLast?_concat]

/-- C5 witness: the input `"Open Consent.txt"` also matches the `open` event
condition, yet is recorded as a `consent` entry. -/
theorem C5_witness :
    (CONSENT_KEYWORDS.any (fun kw => pyIn kw (pyLower (pyStrip "Open Consent.txt"))) = true) ∧
    ((gardenStep "t" "Open Consent.txt" { stage := "scatter", entries := [] }).entries.getLast?).map
        GEntry.kind = some "consent" :=
  ⟨by decide, C5_consent_overrides "t" "Open Consent.txt" { stage := "scatter", entries := [] }
    (by decide)⟩

theorem mem_if_singleton {c : Prop} [Decidable c] {x y : Issue} :
    x ∈ (if c then [y] else ([] : List Issue)) ↔ c ∧ x = y := by
  split <;> simp_all

theorem mem_if_singleton2 {c : Prop} [Decidable c] {x y : Issue} :
    x ∈ (if c then ([] : List Issue) else [y]) ↔ ¬c ∧ x = y := by
  split <;> simp_all

theorem mem_linkIssues {pts : String → Option Int} {i : Nat} {pb b : Block} {x : Issue} :
    x ∈ linkIssues pts i pb b ↔
      (x = Issue.brokenPrev i ∧ b.prev ≠ pb.hash) ∨
      (x = Issue.tsOrder i ∧ ∃ p c, pts pb.ts = some p ∧ pts b.ts = some c ∧ c < p) := by
  unfold linkIssues
  rcases hp : pts pb.ts with _ | p <;> rcases hc : pts b.ts with _ | c <;>
    simp [mem_if_singleton, hp, hc, and_comm]

theorem mem_blockIssues {h : String → String} {pts : String → Option Int}
    {blocks : List Block} {i : Nat} {b : Block} {x : Issue} :
    x ∈ blockIssues h pts blocks i b ↔
      (x = Issue.hashMismatch i ∧ b.hash ≠ blockHash h b) ∨
      (0 < i ∧ ∃ pb, blocks[i-1]? = some pb ∧ x ∈ linkIssues pts i pb b) := by
  unfold blockIssues
  rcases Nat.eq_zero_or_pos i with hi0 | hip
  · subst hi0
    simp [mem_if_singleton, and_comm]
  · rcases hpb : blocks[i-1]? with _ | pb <;>
      simp [mem_if_singleton, hip, hpb, and_comm]

theorem mem_scanIssues {h : String → String} {pts : String → Option Int}
    {blocks : List Block} {x : Issue} :
    x ∈ scanIssues h pts blocks ↔
      ∃ i, ∃ hi : i < blocks.length, x ∈ blockIssues h pts blocks i (blocks.get ⟨i, hi⟩) := by
  unfold scanIssues
  rw [List.mem_flatMap]
  constructor
  · rintro ⟨i, hir, hx⟩
    rw [List.mem_range] at hir
    rw [List.getElem?_eq_getElem hir] at hx
    exact ⟨i, hir, by simpa using hx⟩
  · rintro ⟨i, hi, hx⟩
    refine ⟨i, List.mem_range.mpr hi, ?_⟩
    rw [List.getElem?_eq_getElem hi]
    simpa using hx

theorem scanIssues_nil {h : String → String} {pts : String → Option Int} :
    scanIssues h pts [] = [] := by
  simp [scanIssues]

theorem mem_kiraIssues_ok_scan {h : String → String} {pts : String → Option Int}
    {blocks : List Block} {g : List GEntry} {x : Issue}
    (hx1 : x ≠ Issue.missingOrEmpty) (hx2 : x ≠ Issue.malformedGenesis)
    (hx3 : x ≠ Issue.noConsent) :
    x ∈ kiraIssues h pts (.ok blocks) g ↔ x ∈ scanIssues h pts blocks := by
  unfold kiraIssues
  cases blocks with
  | nil =>
    simp [chainIssues, scanIssues_nil, mem_if_singleton2, hx1, hx3]
  | cons b0 rest =>
    simp [chainIssues, mem_if_singleton, mem_if_singleton2, hx2, hx3]

/-- Invariant established by the Limnus writer: every stored hash is the digest
of the block's own non-hash fields, and every block's `prev` equals its
predecessor's stored hash. -/
def WellChained (h : String → String) (blocks : List Block) : Prop :=
  (∀ b ∈ blocks, b.hash = blockHash h b) ∧
  List.Chain' (fun a b => b.prev = a.hash) blocks

theorem appendBlock_wellChained {h : String → String} {chain : List Block}
    (op : AppendOp) (hw : WellChained h chain) :
    WellChained h (appendBlock h op chain) := by
  obtain ⟨hh, hc⟩ := hw
  constructor
  · intro b hb
    simp only [appendBlock, List.mem_append, List.mem_singleton] at hb
    rcases hb with hb | hb
    · exact hh b hb
    · subst hb
      rfl
  · simp only [appendBlock]
    rw [List.chain'_append]
    refine ⟨hc, List.chain'_singleton _, ?_⟩
    intro x hx y hy
    simp only [List.head?_cons, Option.mem_def, Option.some.injEq] at hy
    rw [Option.mem_def] at hx
    subst hy
    simp [hx]

theorem foldl_wellChained {h : String → String} (ops : List AppendOp) :
    ∀ chain, WellChained h chain →
      WellChained h (ops.foldl (fun ch op => appendBlock h op ch) chain) := by
  induction ops with
  | nil => exact fun _ hw => hw
  | cons op ops ih => exact fun chain hw => ih _ (appendBlock_wellChained op hw)

theorem buildChain_wellChained (h : String → String) (ts : String) (ops : List AppendOp) :
    WellChained h (buildChain h ts ops) := by
  refine foldl_wellChained ops _ ⟨?_, List.chain'_singleton _⟩
  intro b hb
  rw [List.mem_singleton] at hb
  subst hb
  rfl

theorem wellChained_no_hashMismatch {h : String → String} {pts : String → Option Int}
    {blocks : List Block} {k : Nat} (hw : WellChained h blocks) :
    Issue.hashMismatch k ∉ scanIssues h pts blocks := by
  intro hmem
  rw [mem_scanIssues] at hmem
  obtain ⟨i, hi, hx⟩ := hmem
  rw [mem_blockIssues] at hx
  rcases hx with ⟨-, hne⟩ | ⟨-, pb, -, hlink⟩
  · exact hne (hw.1 _ (List.get_mem blocks i hi))
  · rw [mem_linkIssues] at hlink
    rcases hlink with ⟨hx, -⟩ | ⟨hx, -⟩ <;> exact Issue.noConfusion hx

theorem wellChained_no_brokenPrev {h : String → String} {pts : String → Option Int}
    {blocks : List Block} {k : Nat} (hw : WellChained h blocks) :
    Issue.brokenPrev k ∉ scanIssues h pts blocks := by
  intro hmem
  rw [mem_scanIssues] at hmem
  obtain ⟨i, hi, hx⟩ := hmem
  rw [mem_blockIssues] at hx
  rcases hx with ⟨hx, -⟩ | ⟨hip, pb, hpb, hlink⟩
  · exact Issue.noConfusion hx
  · rw [mem_linkIssues] at hlink
    rcases hlink with ⟨-, hne⟩ | ⟨hx, -⟩
    · have hi1 : i - 1 < blocks.length - 1 := by omega
      have hlinkeq := List.chain'_iff_get.mp hw.2 (i - 1) hi1
      have hsub : i - 1 + 1 = i := by omega
      rw [List.getElem?_eq_getElem (by omega)] at hpb
      apply hne
      rw [← Option.some_inj.mp hpb]
      simpa [List.get_eq_getElem, hsub] using hlinkeq
    · exact Issue.noConfusion hx

/-- C1: for every ledger produced from the genesis block by any finite
sequence of Limnus appends, with the persisted blocks handed intact to the
validator, no hash-mismatch issue and no broken-prev-link issue is reported at
any block index. -/
theorem C1_no_integrity_issues (h : String → String) (pts : String → Option Int)
    (genesisTs : String) (ops : List AppendOp) (g : List GEntry) (k : Nat) :
    Issue.hashMismatch k ∉ kiraIssues h pts (.ok (buildChain h genesisTs ops)) g ∧
    Issue.brokenPrev k ∉ kiraIssues h pts (.ok (buildChain h genesisTs ops)) g := by
  have hw := buildChain_wellChained h genesisTs ops
  constructor
  · intro hmem
    rw [mem_kiraIssues_ok_scan (by simp) (by simp) (by simp)] at hmem
    exact wellChained_no_hashMismatch hw hmem
  · intro hmem
    rw [mem_kiraIssues_ok_scan (by simp) (by simp) (by simp)] at hmem
    exact wellChained_no_brokenPrev hw hmem

/-- C7: the validator scan is exhaustive and per-index: a hash-mismatch or
broken-prev-link issue is reported at index `k` exactly when that index
violates the corresponding check — conditions that do not mention the
timestamp parser `pts` at all — and a timestamp-order issue is reported at `k`
exactly when both adjacent timestamps parse and compare out of order. A parse
failure therefore suppresses only the order comparison at that index and never
stops the checks of any block. -/
theorem C7_full_scan (h : String → String) (pts : String → Option Int)
    (blocks : List Block) (g : List GEntry) (k : Nat) :
    (Issue.hashMismatch k ∈ kiraIssues h pts (.ok blocks) g ↔
      ∃ hk : k < blocks.length,
        (blocks.get ⟨k, hk⟩).hash ≠ blockHash h (blocks.get ⟨k, hk⟩))
    ∧ (Issue.brokenPrev k ∈ kiraIssues h pts (.ok blocks) g ↔
      ∃ hk : k < blocks.length, 0 < k ∧
        ∃ pb, blocks[k-1]? = some pb ∧ (blocks.get ⟨k, hk⟩).prev ≠ pb.hash)
    ∧ (Issue.tsOrder k ∈ kiraIssues h pts (.ok blocks) g ↔
      ∃ hk : k < blocks.length, 0 < k ∧
        ∃ pb, blocks[k-1]? = some pb ∧
          ∃ p c, pts pb.ts = some p ∧ pts (blocks.get ⟨k, hk⟩).ts = some c ∧ c < p) := by
  refine ⟨?_, ?_, ?_⟩
  · rw [mem_kiraIssues_ok_scan (by simp) (by simp) (by simp), mem_scanIssues]
    constructor
    · rintro ⟨i, hi, hx⟩
      rw [mem_blockIssues] at hx
      rcases hx with ⟨heq, hne⟩ | ⟨-, pb, -, hlink⟩
      · injection heq with hk
        subst hk
        exact ⟨hi, hne⟩
      · rw [mem_linkIssues] at hlink
        rcases hlink with ⟨hx, -⟩ | ⟨hx, -⟩ <;> exact Issue.noConfusion hx
    · rintro ⟨hk, hne⟩
      exact ⟨k, hk, mem_blockIssues.mpr (Or.inl ⟨rfl, hne⟩)⟩
  · rw [mem_kiraIssues_ok_scan (by simp) (by simp) (by simp), mem_scanIssues]
    constructor
    · rintro ⟨i, hi, hx⟩
      rw [mem_blockIssues] at hx
      rcases hx with ⟨hx, -⟩ | ⟨hip, pb, hpb, hlink⟩
      · exact Issue.noConfusion hx
      · rw [mem_linkIssues] at hlink
        rcases hlink with ⟨heq, hne⟩ | ⟨hx, -⟩
        · injection heq with hk
          subst hk
          exact ⟨hi, hip, pb, hpb, hne⟩
        · exact Issue.noConfusion hx
    · rintro ⟨hk, hkp, pb, hpb, hne⟩
      exact ⟨k, hk, mem_blockIssues.mpr
        (Or.inr ⟨hkp, pb, hpb, mem_linkIssues.mpr (Or.inl ⟨rfl, hne⟩)⟩)⟩
  · rw [mem_kiraIssues_ok_scan (by simp) (by simp) (by simp), mem_scanIssues]
    constructor
    · rintro ⟨i, hi, hx⟩
      rw [mem_blockIssues] at hx
      rcases hx with ⟨hx, -⟩ | ⟨hip, pb, hpb, hlink⟩
      · exact Issue.noConfusion hx
      · rw [mem_linkIssues] at hlink
        rcases hlink with ⟨hx, -⟩ | ⟨heq, p, c, hp, hc, hlt⟩
        · exact Issue.noConfusion hx
        · injection heq with hk
          subst hk
          exact ⟨hi, hip, pb, hpb, p, c, hp, hc, hlt⟩
    · rintro ⟨hk, hkp, pb, hpb, p, c, hp, hc, hlt⟩
      exact ⟨k, hk, mem_blockIssues.mpr
        (Or.inr ⟨hkp, pb, hpb, mem_linkIssues.mpr (Or.inr ⟨rfl, p, c, hp, hc, hlt⟩)⟩)⟩

theorem elemsAsBlocks_map (blocks : List Block) :
    elemsAsBlocks? (blocks.map PyElem.blockElem) = some blocks := by
  induction blocks with
  | nil => rfl
  | cons b t ih => simp [elemsAsBlocks?, ih]

theorem elemsAsBlocks_bad (pre post : List PyElem) :
    elemsAsBlocks? (pre ++ PyElem.badElem :: post) = none := by
  induction pre with
  | nil => rfl
  | cons e t ih => cases e <;> simp [elemsAsBlocks?, ih]

/-- C4: the persisted ledger file content `[1]` parses without error and is
truthy, but its element is not a JSON object, so `first_block.get("prev")`
raises an uncaught exception: the validator does not return a structured
result for this persisted ledger state, refuting the claim as stated. -/
theorem C4_counterexample :
    returnsResult (kiraRun (fun s => s) (fun _ => none)
      (.arr [PyElem.badElem]) []) = false := rfl

/-- C4 (amended): whenever the persisted ledger state is missing or
unparseable (the read raises and is caught), parses to a falsy value, or
parses to an array of block-shaped objects, the validator returns a
structured result whose `passed` field is true exactly when its issue list is
empty, and a failed read is reported as the single leading `readError` issue
of that list rather than raised; for a parse result of any other shape — a
truthy non-array, or an array holding a non-object element — the process
instead raises an uncaught exception and returns nothing. -/
theorem C4_amended_thm (h : String → String) (pts : String → Option Int)
    (r : ReadResult) (g : List GEntry) (msg : String) (blocks : List Block) :
    ((kiraProcess h pts r g).passed = true ↔ (kiraProcess h pts r g).issues = []) ∧
    (kiraIssues h pts (.err msg) g =
      Issue.readError msg :: Issue.missingOrEmpty ::
        (if g.any (fun e => e.kind == "consent") then [] else [Issue.noConsent])) ∧
    (kiraRun h pts (.readErr msg) g = .ok (kiraProcess h pts (.err msg) g)) ∧
    (kiraRun h pts .falsyNonArr g = .ok (kiraProcess h pts (.ok []) g)) ∧
    (kiraRun h pts (.arr (blocks.map PyElem.blockElem)) g =
      .ok (kiraProcess h pts (.ok blocks) g)) ∧
    (returnsResult (kiraRun h pts .truthyNonArr g) = false) ∧
    (∀ pre post : List PyElem,
      returnsResult (kiraRun h pts (.arr (pre ++ PyElem.badElem :: post)) g) = false) := by
  refine ⟨?_, rfl, rfl, rfl, ?_, rfl, ?_⟩
  · simp [kiraProcess, List.isEmpty_iff]
  · cases blocks with
    | nil => rfl
    | cons b t =>
      have hmap := elemsAsBlocks_map (b :: t)
      simp only [List.map_cons] at hmap
      simp [kiraRun, hmap]
  · intro pre post
    simp [kiraRun, elemsAsBlocks_bad, returnsResult]

/-- C10: an empty parsed ledger and an unreadable ledger file both yield a
failing validation whose issue list contains the missing-or-empty finding; an
empty chain never passes. -/
theorem C10_empty_or_unreadable_fails (h : String → String) (pts : String → Option Int)
    (g : List GEntry) (msg : String) :
    ((kiraProcess h pts (.ok []) g).passed = false ∧
      Issue.missingOrEmpty ∈ kiraIssues h pts (.ok []) g) ∧
    ((kiraProcess h pts (.err msg) g).passed = false ∧
      Issue.missingOrEmpty ∈ kiraIssues h pts (.err msg) g) := by
  refine ⟨⟨?_, ?_⟩, ⟨?_, ?_⟩⟩ <;> simp [kiraProcess, kiraIssues, chainIssues]

theorem charListLe_antisymm : ∀ as bs : List Char,
    charListLe as bs = true → charListLe bs as = true → as = bs := by
  intro as
  induction as with
  | nil =>
    intro bs h1 h2
    cases bs with
    | nil => rfl
    | cons b bs => exact absurd h2 (by simp [charListLe])
  | cons a as ih =>
    intro bs h1 h2
    cases bs with
    | nil => exact absurd h1 (by simp [charListLe])
    | cons b bs =>
      simp only [charListLe] at h1 h2
      rcases Nat.lt_trichotomy a.toNat b.toNat with hab | hab | hab
      · rw [if_neg (by omega), if_pos (by omega)] at h2
        exact absurd h2 (by decide)
      · have hc : a = b := by
          apply Char.eq_of_val_eq
          apply UInt32.eq_of_toBitVec_eq
          apply BitVec.eq_of_toNat_eq
          exact hab
        subst hc
        rw [if_neg (by omega), if_neg (by omega)] at h1
        rw [if_neg (by omega), if_neg (by omega)] at h2
        rw [ih bs h1 h2]
      · rw [if_neg (by omega), if_pos (by omega)] at h1
        exact absurd h1 (by decide)

theorem string_eq_of_toList_eq {a b : String} (h : a.toList = b.toList) : a = b := by
  cases a
  cases b
  simp [String.toList] at h
  rw [h]

theorem sortByKey_eq_of_perm {α : Type} {l1 l2 : List (String × α)}
    (hp : l1.Perm l2) (hnd : (l1.map Prod.fst).Nodup) :
    sortByKey l1 = sortByKey l2 := by
  have hperm : (sortByKey l1).Perm (sortByKey l2) :=
    (List.perm_insertionSort keyLE l1).trans (hp.trans (List.perm_insertionSort keyLE l2).symm)
  have hs1 : List.Sorted keyLE (sortByKey l1) := List.sorted_insertionSort keyLE l1
  have hs2 : List.Sorted keyLE (sortByKey l2) := List.sorted_insertionSort keyLE l2
  have hnd1 : ((sortByKey l1).map Prod.fst).Nodup :=
    ((List.perm_insertionSort keyLE l1).map Prod.fst).nodup_iff.mpr hnd
  have hnd2 : ((sortByKey l2).map Prod.fst).Nodup := by
    have h2 : (l2.map Prod.fst).Nodup := (hp.map Prod.fst).nodup_iff.mp hnd
    exact ((List.perm_insertionSort keyLE l2).map Prod.fst).nodup_iff.mpr h2
  have hstrict : ∀ (l : List (String × α)), List.Sorted keyLE l → ((l.map Prod.fst).Nodup) →
      List.Pairwise (fun p q : String × α => keyLE p q ∧ p.1 ≠ q.1) l := by
    intro l hs hnd0
    have hne : List.Pairwise (fun p q : String × α => p.1 ≠ q.1) l :=
      (List.pairwise_map).mp hnd0
    exact hs.and hne
  exact @List.eq_of_perm_of_sorted _ (fun p q : String × α => keyLE p q ∧ p.1 ≠ q.1)
    ⟨fun a b h1 h2 =>
      absurd (string_eq_of_toList_eq (charListLe_antisymm _ _ h1.1 h2.1)) h1.2⟩
    _ _ hperm (hstrict _ hs1 hnd1) (hstrict _ hs2 hnd2)

theorem orderedInsert_canonPair (a : String × JVal) (l : List (String × JVal)) :
    List.orderedInsert keyLE (canonPair a) (l.map canonPair) =
      (List.orderedInsert keyLE a l).map canonPair := by
  induction l with
  | nil => rfl
  | cons b t ih =>
    simp only [List.map_cons, List.orderedInsert]
    split_ifs with h1 h2 h3
    · simp
    · exact absurd h1 h2
    · exact absurd h3 h1
    · simp [ih]

theorem insertionSort_map_canonPair (l : List (String × JVal)) :
    List.insertionSort keyLE (l.map canonPair) = (List.insertionSort keyLE l).map canonPair := by
  induction l with
  | nil => rfl
  | cons a t ih =>
    simp only [List.map_cons, List.insertionSort, ih, orderedInsert_canonPair]

theorem serVal_eq_canon (v : JVal) : serVal v = serValCanon (canonVal v) := by
  cases v <;> rfl

theorem dumpsSorted_eq_canon (j : JObj) :
    dumpsSorted j =
      serFields ((sortByKey (j.map canonPair)).map (fun p => (p.1, serValCanon p.2))) := by
  unfold dumpsSorted sortByKey
  rw [insertionSort_map_canonPair, List.map_map]
  refine congrArg serFields (List.map_congr_left ?_)
  intro p hp
  simp [Function.comp, canonPair, serVal_eq_canon]

/-- C9: hashing a raw block object is deterministic in its field values: if
two insertion-ordered objects hold the same fields (after canonicalizing the
key order inside nested objects they are permutations of each other) and the
keys are distinct, the sorted-key serialization — and hence any digest of it —
is identical, regardless of the order fields or nested keys were inserted. -/
theorem C9_hash_deterministic (h : String → String) (j1 j2 : JObj)
    (hnd : (j1.map Prod.fst).Nodup)
    (hperm : (j1.map canonPair).Perm (j2.map canonPair)) :
    h (dumpsSorted j1) = h (dumpsSorted j2) := by
  have hnd1 : ((j1.map canonPair).map Prod.fst).Nodup := by
    rw [List.map_map]
    have hfun : (Prod.fst ∘ canonPair) = (Prod.fst : String × JVal → String) := rfl
    rw [hfun]
    exact hnd
  have hsorteq : sortByKey (j1.map canonPair) = sortByKey (j2.map canonPair) :=
    sortByKey_eq_of_perm hperm hnd1
  rw [dumpsSorted_eq_canon, dumpsSorted_eq_canon, hsorteq]

/-- C9 witness: the same logical two-field block in two different insertion
orders (both at top level and inside the nested object) serializes — and so
hashes — identically. -/
theorem C9_witness :
    (j1W.map Prod.fst).Nodup ∧ (j1W.map canonPair).Perm (j2W.map canonPair) ∧
      dumpsSorted j1W = dumpsSorted j2W :=
  ⟨by decide, by decide, C9_hash_deterministic (fun s => s) j1W j2W (by decide) (by decide)⟩
